import Mathlib

set_option maxRecDepth 4000

/-!
Verification of the field-extraction and serialization logic of
`src/components/ContentConverter.tsx` (two variants of the component:
a tolerant/reactive one and a strict/on-demand one).

Texts are modelled as `List Char`.  The JavaScript regexes used by the code
all have the shape `label:\s*(.+?)(?=\s*(?:L1|...|Lk)|$)` (with flag `s`,
and additionally `i` for the tolerant variant) or `label:\s*\|\s*(.+?)(...)`
for the block-marker content field, or `image:\s*(.+?)$`.  Their backtracking
semantics is embedded directly:

* the engine matches at the leftmost position where the whole pattern can
  succeed;
* the greedy `\s*` takes the maximal whitespace run, backing off by exactly
  as much as the mandatory nonempty lazy group `(.+?)` needs;
* the lazy group stops at the first position where the lookahead holds, and
  the lookahead `(?=\s*(?:labels)|$)` holds at a position exactly when the
  position is the end of input or a label follows the whitespace run there.
-/

/-- JavaScript `\s` restricted to the ASCII range (the only characters the
embedded texts use). -/
def isWs (c : Char) : Bool :=
  c = ' ' || c = '\t' || c = '\n' || c = '\r' || c = '\x0B' || c = '\x0C'

/-- ASCII lower-casing, the effect of the JavaScript `i` flag on the
characters involved. -/
def lc (c : Char) : Char :=
  if 'A' ≤ c ∧ c ≤ 'Z' then Char.ofNat (c.toNat + 32) else c

/-- Does `lab` match at the head of `s`, case-insensitively? -/
def matchCI : List Char → List Char → Bool
  | [], _ => true
  | _ :: _, [] => false
  | a :: l, c :: r => (lc c == a) && matchCI l r

/-- Does `lab` match at the head of `s`, case-sensitively? -/
def matchCS : List Char → List Char → Bool
  | [], _ => true
  | _ :: _, [] => false
  | a :: l, c :: r => (c == a) && matchCS l r

/-- Consume `lab` (case-insensitively) at the head of `s`. -/
def stripCI : List Char → List Char → Option (List Char)
  | [], s => some s
  | _ :: _, [] => none
  | a :: l, c :: r => if lc c == a then stripCI l r else none

/-- Consume `lab` (case-sensitively) at the head of `s`. -/
def stripCS : List Char → List Char → Option (List Char)
  | [], s => some s
  | _ :: _, [] => none
  | a :: l, c :: r => if c == a then stripCS l r else none

/-- Drop the leading whitespace run. -/
def dropWs : List Char → List Char
  | [] => []
  | c :: cs => if isWs c then dropWs cs else c :: cs

/-- Length of the leading whitespace run. -/
def wsRunLen : List Char → Nat
  | [] => 0
  | c :: cs => if isWs c then wsRunLen cs + 1 else 0

/-- JavaScript `String.prototype.trim`. -/
def trimL (l : List Char) : List Char :=
  ((dropWs ((dropWs l).reverse)).reverse)

/-- The lazy group `(.+?)` bounded by a lookahead: the shortest nonempty
prefix of the input such that `la` holds at the remainder. -/
def lazyCapture (la : List Char → Bool) : List Char → Option (List Char)
  | [] => none
  | c :: cs =>
    if la cs then some [c]
    else (lazyCapture la cs).map (fun t => c :: t)

/-- The combination `\s*(.+?)(?=lookahead)` after a label, with the greedy/lazy backtracking
resolved: the whitespace run is consumed except that at least one character
is left for the mandatory lazy group.  (All lookaheads used by the code hold
at the end of input, so the lazy group always finds a stopping point.) -/
def wsLazyCapture (la : List Char → Bool) (rest : List Char) : Option (List Char) :=
  match rest with
  | [] => none
  | _ :: _ =>
    let w := min (wsRunLen rest) (rest.length - 1)
    lazyCapture la (rest.drop w)

/-- The combination `\s*\|` then `\s*(.+?)(?=lookahead)`: the block-marker form of the
content field.  The whitespace run before the `|` is forced (no whitespace
character equals `|`). -/
def pipeThen (la : List Char → Bool) (rest : List Char) : Option (List Char) :=
  match dropWs rest with
  | '|' :: r2 => wsLazyCapture la r2
  | _ => none

/-- Leftmost-match search: try the pattern at every start position, in
order. -/
def scan {α : Type} (tryAt : List Char → Option α) : List Char → Option α
  | [] => tryAt []
  | c :: cs =>
    match tryAt (c :: cs) with
    | some r => some r
    | none => scan tryAt cs

/-- The six labels, in the record's fixed field order. -/
def allLabels : List (List Char) :=
  ["slug:", "title:", "category:", "excerpt:", "content:", "image:"].map String.toList

/-- The boundary labels of the tolerant-variant content pattern: `content:`
itself is excluded there. -/
def contentLabels : List (List Char) :=
  ["slug:", "title:", "category:", "excerpt:", "image:"].map String.toList

/-- Boundary test of the tolerant `extractField` lookahead
`(?=\s*(?:slug:|title:|category:|excerpt:|content:|image:)|$)`. -/
def tolBoundary (u : List Char) : Bool :=
  allLabels.any (fun l => matchCI l (dropWs u))

/-- The full tolerant lookahead, including the `$` alternative. -/
def laTol (u : List Char) : Bool :=
  u.isEmpty || tolBoundary u

/-- Boundary test of the tolerant content pattern. -/
def tolContentB (u : List Char) : Bool :=
  contentLabels.any (fun l => matchCI l (dropWs u))

/-- Lookahead of the tolerant content pattern. -/
def laTolContent (u : List Char) : Bool :=
  u.isEmpty || tolContentB u

/-- Lookahead `(?=\s*lab|$)` of the strict variant (case-sensitive). -/
def laNext (lab : List Char) (u : List Char) : Bool :=
  u.isEmpty || matchCS lab (dropWs u)

/-- The `$` anchor of the strict `image` pattern. -/
def laEnd (u : List Char) : Bool :=
  u.isEmpty

/-- One attempt of a `label:\s*(.+?)(?=la)` pattern at a fixed position. -/
def tryFieldAt (lab : List Char) (la : List Char → Bool) (s : List Char) :
    Option (List Char) :=
  match stripCI lab s with
  | none => none
  | some rest => wsLazyCapture la rest

/-- One attempt of the tolerant content pattern
`content:\s*\|\s*(.+?)(?=...)` at a fixed position. -/
def tryContentAt (s : List Char) : Option (List Char) :=
  match stripCI ("content:".toList) s with
  | none => none
  | some rest => pipeThen laTolContent rest

/-- Tolerant variant, `extractField(fieldName)`: run the order-independent
pattern and return the trimmed capture, or the empty string when the regex
does not match. -/
def extractField (name : List Char) (input : List Char) : List Char :=
  match scan (tryFieldAt (name ++ [':']) laTol) input with
  | some cap => trimL cap
  | none => []

/-- Tolerant variant: the content value, preferring the block-marker pattern
and falling back to `extractField('content')`. -/
def contentField (input : List Char) : List Char :=
  match scan tryContentAt input with
  | some cap => trimL cap
  | none => extractField ("content".toList) input

/-- The six extracted string fields of a record (without the id). -/
structure Fields where
  slug : List Char
  title : List Char
  category : List Char
  excerpt : List Char
  content : List Char
  image : List Char
deriving Repr, DecidableEq

/-- JavaScript `x || dflt` on strings: the empty string is falsy. -/
def orElseL (v dflt : List Char) : List Char :=
  if v.isEmpty then dflt else v

def phSlug : List Char := "no-slug-found".toList
def phTitle : List Char := "No Title Found".toList
def phCategory : List Char := "Uncategorized".toList
def phExcerpt : List Char := "No excerpt available".toList
def phContent : List Char := "No content available".toList
def phImage : List Char := "No image URL provided".toList

/-- Tolerant variant, the extraction core of `parseContent`: fails exactly
when the extracted slug, title and content are all empty; otherwise builds
the record, substituting the per-field placeholder for each empty value. -/
def parseTol (input : List Char) : Option Fields :=
  let slug := extractField ("slug".toList) input
  let title := extractField ("title".toList) input
  let category := extractField ("category".toList) input
  let excerpt := extractField ("excerpt".toList) input
  let content := contentField input
  let image := extractField ("image".toList) input
  if slug.isEmpty && title.isEmpty && content.isEmpty then none
  else some
    { slug := orElseL slug phSlug
      title := orElseL title phTitle
      category := orElseL category phCategory
      excerpt := orElseL excerpt phExcerpt
      content := orElseL content phContent
      image := orElseL image phImage }

/-- Strict variant: `/slug:\s*(.+?)(?=\s*title:|$)/s`. -/
def slugMatch (input : List Char) : Option (List Char) :=
  scan (fun s =>
    match stripCS ("slug:".toList) s with
    | none => none
    | some rest => wsLazyCapture (laNext ("title:".toList)) rest) input

/-- Strict variant: `/title:\s*(.+?)(?=\s*category:|$)/s`. -/
def titleMatch (input : List Char) : Option (List Char) :=
  scan (fun s =>
    match stripCS ("title:".toList) s with
    | none => none
    | some rest => wsLazyCapture (laNext ("category:".toList)) rest) input

/-- Strict variant: `/category:\s*(.+?)(?=\s*excerpt:|$)/s`. -/
def categoryMatch (input : List Char) : Option (List Char) :=
  scan (fun s =>
    match stripCS ("category:".toList) s with
    | none => none
    | some rest => wsLazyCapture (laNext ("excerpt:".toList)) rest) input

/-- Strict variant: `/excerpt:\s*(.+?)(?=\s*content:|$)/s`. -/
def excerptMatch (input : List Char) : Option (List Char) :=
  scan (fun s =>
    match stripCS ("excerpt:".toList) s with
    | none => none
    | some rest => wsLazyCapture (laNext ("content:".toList)) rest) input

/-- Strict variant: `/content:\s*\|\s*(.+?)(?=\s*image:|$)/s`. -/
def contentMatchS (input : List Char) : Option (List Char) :=
  scan (fun s =>
    match stripCS ("content:".toList) s with
    | none => none
    | some rest => pipeThen (laNext ("image:".toList)) rest) input

/-- Strict variant: `/image:\s*(.+?)$/s`. -/
def imageMatch (input : List Char) : Option (List Char) :=
  scan (fun s =>
    match stripCS ("image:".toList) s with
    | none => none
    | some rest => wsLazyCapture laEnd rest) input

/-- Strict variant, the extraction core of `parseContent`: all six patterns
must match, and each captured value is trimmed. -/
def parseStrict (input : List Char) : Option Fields :=
  match slugMatch input, titleMatch input, categoryMatch input,
        excerptMatch input, contentMatchS input, imageMatch input with
  | some s, some t, some c, some e, some co, some i =>
    some
      { slug := trimL s
        title := trimL t
        category := trimL c
        excerpt := trimL e
        content := trimL co
        image := trimL i }
  | _, _, _, _, _, _ => none

/-- The `ContentItem` interface: the parsed record, id included. -/
structure ContentItem where
  id : Nat
  slug : List Char
  title : List Char
  category : List Char
  excerpt : List Char
  content : List Char
  image : List Char
deriving Repr, DecidableEq

def itemOfFields (now : Nat) (f : Fields) : ContentItem :=
  { id := now
    slug := f.slug
    title := f.title
    category := f.category
    excerpt := f.excerpt
    content := f.content
    image := f.image }

/-- The component state the claims talk about: the held record and the
error message (the empty string when no error is displayed). -/
structure St where
  parsedData : Option ContentItem
  error : List Char
deriving Repr, DecidableEq

def errInsufficient : List Char :=
  "Could not extract required fields. Please check your input format.".toList

def errMalformed : List Char :=
  "Invalid format. Please check your input content format.".toList

def errEmptyStrict : List Char :=
  "Please enter content to parse".toList

/-- Tolerant variant, `parseContent` as a state transformer (`now` is the
injected `Date.now()`):
`setError('')`, clear the record on blank input, otherwise extract and
either set the error (record untouched) or store the new record. -/
def parseContentTol (now : Nat) (input : List Char) (st : St) : St :=
  let st1 : St := { st with error := [] }
  if (trimL input).isEmpty then { st1 with parsedData := none }
  else
    match parseTol input with
    | none => { st1 with error := errInsufficient }
    | some f => { st1 with parsedData := some (itemOfFields now f) }

/-- Tolerant variant, the `useEffect` reacting to every input change:
blank input just clears the record (the error is left as it was), anything
else goes through `parseContent`. -/
def reactiveStep (now : Nat) (input : List Char) (st : St) : St :=
  if (trimL input).isEmpty then { st with parsedData := none }
  else parseContentTol now input st

/-- Strict variant, `parseContent` (triggered on demand): blank input sets
an error message; a failed match sets `errMalformed`; in both failure cases
the held record is not touched. -/
def parseContentStrict (now : Nat) (input : List Char) (st : St) : St :=
  let st1 : St := { st with error := [] }
  if (trimL input).isEmpty then { st1 with error := errEmptyStrict }
  else
    match parseStrict input with
    | none => { st1 with error := errMalformed }
    | some f => { st1 with parsedData := some (itemOfFields now f) }

/-- The seven stringified values of a record, in the fixed order. -/
def sevenValues (r : ContentItem) : List (List Char) :=
  [(Nat.repr r.id).toList, r.slug, r.title, r.category, r.excerpt, r.content, r.image]

/-- The header names used by the strict variant's serializers. -/
def headerNames : List (List Char) :=
  ["id", "slug", "title", "category", "excerpt", "content", "image"].map String.toList

/-- Tolerant variant, `copyToClipboard`: the seven values joined by tabs. -/
def clipboardTol (r : ContentItem) : List Char :=
  List.intercalate ['\t'] (sevenValues r)

/-- Strict variant, `copyToClipboard`: a header row and the value row, each
tab-joined, the two rows joined by a newline. -/
def clipboardStrict (r : ContentItem) : List Char :=
  List.intercalate ['\n']
    [List.intercalate ['\t'] headerNames, List.intercalate ['\t'] (sevenValues r)]

/-- Double every `"` in a value (JavaScript `value.replace(/"/g, '""')`). -/
def dubQ (v : List Char) : List Char :=
  v.flatMap (fun c => if c == '"' then ['"', '"'] else [c])

/-- Does a value need CSV quoting? -/
def needsQuote (v : List Char) : Bool :=
  v.contains ',' || v.contains '"' || v.contains '\n'

/-- The per-value CSV escaping shared by both variants' `exportAsCSV`. -/
def escCSV (v : List Char) : List Char :=
  if needsQuote v then '"' :: (dubQ v ++ ['"']) else v

/-- Tolerant variant, `exportAsCSV`: a single data row, no header. -/
def csvRowTol (r : ContentItem) : List Char :=
  List.intercalate [','] ((sevenValues r).map escCSV)

/-- Strict variant, `exportAsCSV`: header row and data row joined by a
newline. -/
def csvStrict (r : ContentItem) : List Char :=
  List.intercalate ['\n']
    [List.intercalate [','] headerNames,
     List.intercalate [','] ((sevenValues r).map escCSV)]

/-- The six field names, as an enumeration, for stating order-independence. -/
inductive FieldName
  | slug
  | title
  | category
  | excerpt
  | content
  | image
deriving DecidableEq, Repr

instance : Fintype FieldName :=
  ⟨⟨{.slug, .title, .category, .excerpt, .content, .image}, by decide⟩, by
    intro x; cases x <;> decide⟩

def fname : FieldName → List Char
  | .slug => ['s', 'l', 'u', 'g']
  | .title => ['t', 'i', 't', 'l', 'e']
  | .category => ['c', 'a', 't', 'e', 'g', 'o', 'r', 'y']
  | .excerpt => ['e', 'x', 'c', 'e', 'r', 'p', 't']
  | .content => ['c', 'o', 'n', 't', 'e', 'n', 't']
  | .image => ['i', 'm', 'a', 'g', 'e']

def labelOf (f : FieldName) : List Char :=
  fname f ++ [':']

/-- One input block for a field: `name: value\n`, the content field written
with its block marker as `content: |\nbody\n`. -/
def blockOf (f : FieldName) (v : List Char) : List Char :=
  if f = .content then fname .content ++ [':', ' ', '|', '\n'] ++ v ++ ['\n']
  else fname f ++ [':', ' '] ++ v ++ ['\n']

def block (vals : FieldName → List Char) (f : FieldName) : List Char :=
  blockOf f (vals f)

def joinBlocks (fs : List FieldName) (vals : FieldName → List Char) : List Char :=
  (fs.map (block vals)).flatten

def canonicalOrder : List FieldName :=
  [.slug, .title, .category, .excerpt, .content, .image]

/-- An input presenting each field once, in the order given. -/
def mkInput (perm : List FieldName) (vals : FieldName → List Char) : List Char :=
  joinBlocks perm vals

/-- A well-formed field value: nonempty, it contains no colon (so no label
can occur inside it), and it neither starts nor ends with whitespace. -/
def cleanVal (v : List Char) : Prop :=
  v ≠ [] ∧ (∀ x ∈ v, lc x ≠ ':') ∧ isWs v.headI = false ∧ isWs v.reverse.headI = false

instance (v : List Char) : Decidable (cleanVal v) := by
  unfold cleanVal; infer_instance

/-! ### Basic lemmas about matching and whitespace -/

lemma matchCI_cons_head_false {a c : Char} (l t : List Char)
    (h : (lc c == a) = false) : matchCI (a :: l) (c :: t) = false := by
  simp [matchCI, h]

lemma matchCI_ne_nil_nil {l : List Char} (h : l ≠ []) : matchCI l [] = false := by
  cases l with
  | nil => exact absurd rfl h
  | cons a l => rfl

lemma stripCI_of_matchCI_false :
    ∀ {l s : List Char}, matchCI l s = false → stripCI l s = none := by
  intro l
  induction l with
  | nil => intro s h; simp [matchCI] at h
  | cons a l ih =>
    intro s h
    cases s with
    | nil => rfl
    | cons c r =>
      simp only [matchCI, Bool.and_eq_false_iff] at h
      rcases h with h | h
      · simp [stripCI, h]
      · by_cases hca : (lc c == a) = true
        · simp [stripCI, hca, ih h]
        · simp only [Bool.not_eq_true] at hca
          simp [stripCI, hca]

lemma matchCI_self_append {l : List Char} (t : List Char)
    (h : ∀ a ∈ l, lc a = a) : matchCI l (l ++ t) = true := by
  induction l with
  | nil => rfl
  | cons a l ih =>
    simp only [List.cons_append, matchCI, Bool.and_eq_true]
    constructor
    · rw [h a (by simp)]; exact beq_self_eq_true a
    · exact ih (fun x hx => h x (by simp [hx]))

lemma stripCI_self_append {l : List Char} (t : List Char)
    (h : ∀ a ∈ l, lc a = a) : stripCI l (l ++ t) = some t := by
  induction l with
  | nil => rfl
  | cons a l ih =>
    simp only [List.cons_append, stripCI]
    rw [h a (by simp), if_pos (beq_self_eq_true a)]
    exact ih (fun x hx => h x (by simp [hx]))

/-- A label containing a colon and no newline can never match across the
newline that terminates a colon-free value. -/
lemma matchCI_val_nl :
    ∀ (l v w : List Char), ':' ∈ l → '\n' ∉ l → (∀ x ∈ v, lc x ≠ ':') →
      matchCI l (v ++ '\n' :: w) = false := by
  intro l v
  induction v generalizing l with
  | nil =>
    intro w hcol hnl _
    cases l with
    | nil => cases hcol
    | cons a l =>
      apply matchCI_cons_head_false
      rw [show lc '\n' = '\n' from by decide]
      exact beq_eq_false_iff_ne.mpr (fun h => hnl (h ▸ List.mem_cons_self a l))
  | cons c v ih =>
    intro w hcol hnl hv
    cases l with
    | nil => cases hcol
    | cons a l =>
      simp only [List.cons_append, matchCI, Bool.and_eq_false_iff]
      by_cases hca : (lc c == a) = true
      · refine Or.inr (ih l w ?_ ?_ ?_)
        · rcases List.mem_cons.mp hcol with h | h
          · exfalso
            exact hv c (List.mem_cons_self c v) (by rw [← h] at hca; exact eq_of_beq hca)
          · exact h
        · exact fun h => hnl (List.mem_cons_of_mem a h)
        · exact fun x hx => hv x (List.mem_cons_of_mem c hx)
      · exact Or.inl (by simpa using hca)

/-- Aligning a label `n ++ ":"` with a text `m ++ ":" ++ t` where neither
`n` nor `m` contains a colon: a successful match forces `m` to spell `n`. -/
lemma matchCI_colon_align :
    ∀ (m n t : List Char), (∀ x ∈ n, lc x ≠ ':') → (∀ x ∈ m, lc x ≠ ':') →
      matchCI (n ++ [':']) (m ++ ':' :: t) = true → m.map lc = n := by
  intro m
  induction m with
  | nil =>
    intro n t hn _ h
    cases n with
    | nil => rfl
    | cons a n =>
      exfalso
      simp only [List.nil_append, List.cons_append, matchCI, Bool.and_eq_true] at h
      have : lc ':' = a := eq_of_beq h.1
      exact hn a (List.mem_cons_self a n) (by rw [show lc ':' = ':' from by decide] at this; rw [← this]; decide)
  | cons c m ih =>
    intro n t hn hm h
    cases n with
    | nil =>
      exfalso
      simp only [List.nil_append, List.cons_append, matchCI, Bool.and_eq_true] at h
      exact hm c (List.mem_cons_self c m) (eq_of_beq h.1)
    | cons a n =>
      simp only [List.cons_append, matchCI, Bool.and_eq_true] at h
      simp only [List.map_cons]
      rw [eq_of_beq h.1, ih n t (fun x hx => hn x (List.mem_cons_of_mem a hx))
        (fun x hx => hm x (List.mem_cons_of_mem c hx)) h.2]

/-! ### Whitespace-run lemmas -/

lemma dropWs_cons_of_ws {c : Char} (cs : List Char) (h : isWs c = true) :
    dropWs (c :: cs) = dropWs cs := by
  simp [dropWs, h]

lemma dropWs_cons_of_nonws {c : Char} (cs : List Char) (h : isWs c = false) :
    dropWs (c :: cs) = c :: cs := by
  simp [dropWs, h]

lemma dropWs_eq_self {l : List Char} (h : isWs l.headI = false) : dropWs l = l := by
  cases l with
  | nil => rfl
  | cons c cs => exact dropWs_cons_of_nonws cs (by simpa using h)

lemma mem_of_mem_dropWs : ∀ {l : List Char} {x : Char}, x ∈ dropWs l → x ∈ l := by
  intro l
  induction l with
  | nil => intro x h; exact h
  | cons c cs ih =>
    intro x h
    by_cases hc : isWs c = true
    · rw [dropWs_cons_of_ws cs hc] at h
      exact List.mem_cons_of_mem c (ih h)
    · rw [dropWs_cons_of_nonws cs (by simpa using hc)] at h
      exact h

lemma dropWs_append_of_nonws :
    ∀ {u : List Char} (z : List Char), (∃ x ∈ u, isWs x = false) →
      dropWs (u ++ z) = dropWs u ++ z ∧ dropWs u ≠ [] := by
  intro u
  induction u with
  | nil => intro z h; rcases h with ⟨x, hx, _⟩; cases hx
  | cons c cs ih =>
    intro z h
    by_cases hc : isWs c = true
    · have hcs : ∃ x ∈ cs, isWs x = false := by
        rcases h with ⟨x, hx, hxw⟩
        rcases List.mem_cons.mp hx with rfl | hx
        · rw [hc] at hxw; cases hxw
        · exact ⟨x, hx, hxw⟩
      rw [List.cons_append, dropWs_cons_of_ws _ hc, dropWs_cons_of_ws _ hc]
      exact ih z hcs
    · replace hc : isWs c = false := by simpa using hc
      rw [List.cons_append, dropWs_cons_of_nonws _ hc, dropWs_cons_of_nonws _ hc]
      exact ⟨rfl, by simp⟩

lemma wsRunLen_cons_of_ws {c : Char} (cs : List Char) (h : isWs c = true) :
    wsRunLen (c :: cs) = wsRunLen cs + 1 := by
  simp [wsRunLen, h]

lemma wsRunLen_eq_zero {l : List Char} (h : isWs l.headI = false) : wsRunLen l = 0 := by
  cases l with
  | nil => rfl
  | cons c cs => simp [wsRunLen, show isWs c = false from h]

/-! ### Reverse/head bookkeeping for suffixes of clean values -/

lemma headI_append_of_ne_nil {l : List Char} (t : List Char) (h : l ≠ []) :
    (l ++ t).headI = l.headI := by
  cases l with
  | nil => exact absurd rfl h
  | cons c cs => rfl

lemma headI_mem {l : List Char} (h : l ≠ []) : l.headI ∈ l := by
  cases l with
  | nil => exact absurd rfl h
  | cons c cs => exact List.mem_cons_self c cs

lemma headI_of_pfx {p l : List Char} (h : p <+: l) (hp : p ≠ []) :
    p.headI = l.headI := by
  rcases h with ⟨t, rfl⟩
  exact (headI_append_of_ne_nil t hp).symm

/-- A nonempty suffix of a value whose last character is not whitespace
contains a non-whitespace character. -/
lemma sfx_has_nonws {u v : List Char} (hs : u <:+ v) (hu : u ≠ [])
    (hv : isWs v.reverse.headI = false) : ∃ x ∈ u, isWs x = false := by
  have hrev : u.reverse <+: v.reverse := List.reverse_prefix.mpr hs
  have hne : u.reverse ≠ [] := by simpa using hu
  refine ⟨u.reverse.headI, ?_, ?_⟩
  · have := headI_mem hne
    exact List.mem_reverse.mp this
  · rw [headI_of_pfx hrev hne]; exact hv

/-! ### The lazy capture and the leftmost scan -/

lemma lazyCapture_cons (la : List Char → Bool) (c : Char) (cs : List Char) :
    lazyCapture la (c :: cs) =
      if la cs then some [c] else (lazyCapture la cs).map (fun t => c :: t) := rfl

/-- If the lookahead holds at `w` and at no proper cut inside `v`, the lazy
group captures exactly `v`. -/
lemma lazyCapture_exact (la : List Char → Bool) :
    ∀ (v w : List Char), v ≠ [] → la w = true →
      (∀ u, u <:+ v → u ≠ v → u ≠ [] → la (u ++ w) = false) →
      lazyCapture la (v ++ w) = some v := by
  intro v
  induction v with
  | nil => intro w h; exact absurd rfl h
  | cons c v ih =>
    intro w _ hw hin
    cases v with
    | nil => simp [lazyCapture, hw]
    | cons d v' =>
      have hproper : la (d :: (v' ++ w)) = false := by
        have h1 : la ((d :: v') ++ w) = false := by
          refine hin (d :: v') (List.suffix_cons c (d :: v')) ?_ (by simp)
          intro h
          exact absurd (congrArg List.length h) (by simp)
        simpa using h1
      have hrec : lazyCapture la (d :: (v' ++ w)) = some (d :: v') := by
        have h2 : lazyCapture la ((d :: v') ++ w) = some (d :: v') := by
          refine ih w (by simp) hw ?_
          intro u hu hune hunil
          refine hin u (hu.trans (List.suffix_cons c (d :: v'))) ?_ hunil
          intro h
          have := hu.length_le
          rw [h] at this
          simp at this
        simpa using h2
      show lazyCapture la (c :: ((d :: v') ++ w)) = some (c :: d :: v')
      rw [lazyCapture_cons, if_neg (by simpa using hproper)]
      simp [hrec]

lemma scan_eq_of_tryAt_some {α : Type} {tryAt : List Char → Option α}
    {s : List Char} {r : α} (h : tryAt s = some r) : scan tryAt s = some r := by
  cases s with
  | nil => simpa [scan] using h
  | cons c cs => simp [scan, h]

lemma scan_append_of_none {α : Type} {tryAt : List Char → Option α} :
    ∀ {pre : List Char} (s : List Char),
      (∀ u, u <:+ pre → u ≠ [] → tryAt (u ++ s) = none) →
      scan tryAt (pre ++ s) = scan tryAt s := by
  intro pre
  induction pre with
  | nil => intro s _; rfl
  | cons c p ih =>
    intro s h
    have hfull : tryAt ((c :: p) ++ s) = none :=
      h (c :: p) List.suffix_rfl (by simp)
    calc scan tryAt ((c :: p) ++ s)
        = scan tryAt (p ++ s) := by
          simp only [List.cons_append] at hfull ⊢
          simp [scan, hfull]
      _ = scan tryAt s := ih s (fun u hu hne => h u (hu.trans (List.suffix_cons c p)) hne)

lemma suffix_append_cases {u a b : List Char} (h : u <:+ a ++ b) :
    u <:+ b ∨ ∃ p, p <:+ a ∧ p ≠ [] ∧ u = p ++ b := by
  induction a with
  | nil => exact Or.inl (by simpa using h)
  | cons c a ih =>
    rcases List.suffix_cons_iff.mp h with rfl | h2
    · exact Or.inr ⟨c :: a, List.suffix_rfl, by simp, by simp⟩
    · rcases ih h2 with h3 | ⟨p, hp, hpne, rfl⟩
      · exact Or.inl h3
      · exact Or.inr ⟨p, hp.trans (List.suffix_cons c a), hpne, rfl⟩

/-! ### Facts about the six labels (all by finite computation) -/

lemma fname_lower : ∀ f : FieldName, ∀ a ∈ fname f, lc a = a := by
  intro f; cases f <;> decide

lemma labelOf_lower : ∀ f : FieldName, ∀ a ∈ labelOf f, lc a = a := by
  intro f; cases f <;> decide

lemma fname_no_colon : ∀ f : FieldName, ∀ a ∈ fname f, lc a ≠ ':' := by
  intro f; cases f <;> decide

lemma colon_mem_labelOf : ∀ f : FieldName, ':' ∈ labelOf f := by
  intro f; cases f <;> decide

lemma nl_not_mem_labelOf : ∀ f : FieldName, '\n' ∉ labelOf f := by
  intro f; cases f <;> decide

lemma allLabels_shape : ∀ l ∈ allLabels, ':' ∈ l ∧ '\n' ∉ l ∧ l ≠ [] := by decide

lemma contentLabels_shape : ∀ l ∈ contentLabels, ':' ∈ l ∧ '\n' ∉ l ∧ l ≠ [] := by decide

lemma labelOf_mem_allLabels : ∀ f : FieldName, labelOf f ∈ allLabels := by
  intro f; cases f <;> decide

lemma labelOf_mem_contentLabels :
    ∀ f : FieldName, f ≠ .content → labelOf f ∈ contentLabels := by
  intro f h
  cases f
  case content => exact absurd rfl h
  all_goals decide

/-- No field name equals a nonempty suffix of a different field name. -/
lemma fname_suffix_ne :
    ∀ f g : FieldName, f ≠ g → ∀ a, a <:+ fname g → a ≠ fname f := by
  have htab : ∀ f g : FieldName, f ≠ g → ∀ a ∈ (fname g).tails, a ≠ fname f := by decide
  intro f g hfg a ha
  exact htab f g hfg a ((List.mem_tails a (fname g)).mpr ha)

lemma matchCI_label_bad_head :
    ∀ (f : FieldName) (c : Char), (c = ' ' ∨ c = ':' ∨ c = '\n' ∨ c = '|') →
      ∀ t, matchCI (labelOf f) (c :: t) = false := by
  intro f c h t
  cases f <;> rcases h with rfl | rfl | rfl | rfl <;>
    exact matchCI_cons_head_false _ _ (by decide)

/-! ### Shape of input blocks -/

lemma blockOf_generic {f : FieldName} (v : List Char) (h : f ≠ .content) :
    blockOf f v = labelOf f ++ (' ' :: (v ++ ['\n'])) := by
  rw [blockOf, if_neg h, labelOf]
  simp

lemma blockOf_content (v : List Char) :
    blockOf .content v = labelOf .content ++ (' ' :: '|' :: '\n' :: (v ++ ['\n'])) := by
  rw [blockOf, if_pos rfl, labelOf]
  simp

lemma blockOf_ne_nil (f : FieldName) (v : List Char) : blockOf f v ≠ [] := by
  by_cases h : f = .content
  · subst h; rw [blockOf_content]; simp [labelOf]
  · rw [blockOf_generic v h]; simp [labelOf]

lemma blockOf_headI_nonws (f : FieldName) (v : List Char) :
    isWs (blockOf f v).headI = false := by
  have hl : labelOf f ≠ [] := by cases f <;> decide
  have hh : isWs (labelOf f).headI = false := by cases f <;> decide
  by_cases h : f = .content
  · subst h; rw [blockOf_content, headI_append_of_ne_nil _ hl]; exact hh
  · rw [blockOf_generic v h, headI_append_of_ne_nil _ hl]; exact hh

lemma matchCI_labelOf_blockOf (f : FieldName) (v : List Char) (rest : List Char) :
    matchCI (labelOf f) (blockOf f v ++ rest) = true := by
  by_cases h : f = .content
  · subst h
    rw [blockOf_content, List.append_assoc]
    exact matchCI_self_append _ (labelOf_lower _)
  · rw [blockOf_generic v h, List.append_assoc]
    exact matchCI_self_append _ (labelOf_lower _)

/-- At a cut that keeps a nonempty tail of a clean value (plus its closing
newline), no label can match, whatever text follows. -/
lemma no_label_in_valnl {f : FieldName} {v : List Char} (hcol : ∀ x ∈ v, lc x ≠ ':')
    {u : List Char} (hu : u <:+ v ++ ['\n']) (hune : u ≠ []) (w : List Char) :
    matchCI (labelOf f) (u ++ w) = false := by
  rcases suffix_append_cases hu with h1 | ⟨p, hp, hpne, rfl⟩
  · rcases List.suffix_cons_iff.mp h1 with rfl | h2
    · exact matchCI_label_bad_head f '\n' (by decide) w
    · rw [List.suffix_nil.mp h2] at hune; exact absurd rfl hune
  · have hx : (p ++ ['\n']) ++ w = p ++ '\n' :: w := by simp
    rw [hx]
    exact matchCI_val_nl _ p w (colon_mem_labelOf f) (nl_not_mem_labelOf f)
      (fun x hx2 => hcol x (hp.subset hx2))

/-- No label of a *different* field matches at any nonempty suffix of the
block of field `g`, whatever follows the block. -/
lemma block_no_label {f g : FieldName} (hfg : f ≠ g) {v : List Char}
    (hcol : ∀ x ∈ v, lc x ≠ ':') :
    ∀ u, u <:+ blockOf g v → u ≠ [] → ∀ w, matchCI (labelOf f) (u ++ w) = false := by
  intro u hu hune w
  have hshape : ∃ T, blockOf g v = fname g ++ (':' :: ' ' :: T) ∧
      (T = v ++ ['\n'] ∨ T = '|' :: '\n' :: (v ++ ['\n'])) := by
    by_cases h : g = .content
    · subst h
      refine ⟨'|' :: '\n' :: (v ++ ['\n']), ?_, Or.inr rfl⟩
      rw [blockOf, if_pos rfl]; simp
    · refine ⟨v ++ ['\n'], ?_, Or.inl rfl⟩
      rw [blockOf, if_neg h]; simp
  obtain ⟨T, hbv, hT⟩ := hshape
  rw [hbv] at hu
  rcases suffix_append_cases hu with h1 | ⟨p, hp, hpne, rfl⟩
  · rcases List.suffix_cons_iff.mp h1 with rfl | h2
    · exact matchCI_label_bad_head f ':' (by decide) _
    · rcases List.suffix_cons_iff.mp h2 with rfl | h3
      · exact matchCI_label_bad_head f ' ' (by decide) _
      · rcases hT with rfl | rfl
        · exact no_label_in_valnl hcol h3 hune w
        · rcases List.suffix_cons_iff.mp h3 with rfl | h4
          · exact matchCI_label_bad_head f '|' (by decide) _
          · rcases List.suffix_cons_iff.mp h4 with rfl | h5
            · exact matchCI_label_bad_head f '\n' (by decide) _
            · exact no_label_in_valnl hcol h5 hune w
  · by_contra hmc
    rw [Bool.not_eq_false] at hmc
    have hal : p.map lc = fname f := by
      have hx : (p ++ (':' :: ' ' :: T)) ++ w = p ++ ':' :: (' ' :: (T ++ w)) := by simp
      rw [hx] at hmc
      exact matchCI_colon_align p (fname f) _ (fname_no_colon f)
        (fun x hx2 => fname_no_colon g x (hp.subset hx2)) hmc
    have hpid : p.map lc = p :=
      (List.map_congr_left (fun x hx2 => fname_lower g x (hp.subset hx2))).trans
        (List.map_id p)
    exact fname_suffix_ne f g hfg p hp (hpid.symm.trans hal)

/-! ### Skipping a foreign block during the leftmost scan -/

lemma scan_skip (la : List Char → Bool) {f g : FieldName} (hfg : f ≠ g)
    {v : List Char} (hcol : ∀ x ∈ v, lc x ≠ ':') (s : List Char) :
    scan (tryFieldAt (labelOf f) la) (blockOf g v ++ s) =
      scan (tryFieldAt (labelOf f) la) s := by
  refine scan_append_of_none s ?_
  intro u hu hune
  have hm := block_no_label hfg hcol u hu hune s
  unfold tryFieldAt
  rw [stripCI_of_matchCI_false hm]

lemma content_label_eq : ("content:".toList) = labelOf .content := by decide

lemma scan_skip_content {g : FieldName} (hg : g ≠ .content)
    {v : List Char} (hcol : ∀ x ∈ v, lc x ≠ ':') (s : List Char) :
    scan tryContentAt (blockOf g v ++ s) = scan tryContentAt s := by
  refine scan_append_of_none s ?_
  intro u hu hune
  have hm := block_no_label (f := .content) (g := g) (fun h => hg h.symm) hcol u hu hune s
  unfold tryContentAt
  rw [content_label_eq, stripCI_of_matchCI_false hm]

/-! ### Boundary facts at the joints between blocks -/

lemma joinBlocks_cons (f : FieldName) (fs : List FieldName)
    (vals : FieldName → List Char) :
    joinBlocks (f :: fs) vals = blockOf f (vals f) ++ joinBlocks fs vals := by
  simp [joinBlocks, block]

lemma joinBlocks_headI_nonws (g : FieldName) (gs : List FieldName)
    (vals : FieldName → List Char) :
    isWs (joinBlocks (g :: gs) vals).headI = false := by
  rw [joinBlocks_cons, headI_append_of_ne_nil _ (blockOf_ne_nil g _)]
  exact blockOf_headI_nonws g _

lemma tolBoundary_nl_join (g : FieldName) (gs : List FieldName)
    (vals : FieldName → List Char) :
    tolBoundary ('\n' :: joinBlocks (g :: gs) vals) = true := by
  unfold tolBoundary
  rw [dropWs_cons_of_ws _ (by decide), dropWs_eq_self (joinBlocks_headI_nonws g gs vals)]
  rw [List.any_eq_true]
  refine ⟨labelOf g, labelOf_mem_allLabels g, ?_⟩
  rw [joinBlocks_cons]
  exact matchCI_labelOf_blockOf g (vals g) _

lemma tolContentB_nl_join {g : FieldName} (hg : g ≠ .content) (gs : List FieldName)
    (vals : FieldName → List Char) :
    tolContentB ('\n' :: joinBlocks (g :: gs) vals) = true := by
  unfold tolContentB
  rw [dropWs_cons_of_ws _ (by decide), dropWs_eq_self (joinBlocks_headI_nonws g gs vals)]
  rw [List.any_eq_true]
  refine ⟨labelOf g, labelOf_mem_contentLabels g hg, ?_⟩
  rw [joinBlocks_cons]
  exact matchCI_labelOf_blockOf g (vals g) _

lemma laTol_nl_nil : laTol ['\n'] = false := by decide

lemma laTolContent_nl_nil : laTolContent ['\n'] = false := by decide

/-! ### Trimming clean values -/

lemma trimL_clean {v : List Char} (hv : cleanVal v) : trimL v = v := by
  obtain ⟨hne, _, hhd, hlast⟩ := hv
  unfold trimL
  rw [dropWs_eq_self hhd, dropWs_eq_self hlast, List.reverse_reverse]

lemma trimL_clean_nl {v : List Char} (hv : cleanVal v) : trimL (v ++ ['\n']) = v := by
  obtain ⟨hne, _, hhd, hlast⟩ := hv
  have hd1 : dropWs (v ++ ['\n']) = v ++ ['\n'] :=
    dropWs_eq_self (by rw [headI_append_of_ne_nil _ hne]; exact hhd)
  have h1 : (v ++ ['\n']).reverse = '\n' :: v.reverse := by simp
  unfold trimL
  rw [hd1, h1, dropWs_cons_of_ws _ (by decide), dropWs_eq_self hlast, List.reverse_reverse]

/-! ### The capture right after a label -/

lemma wsLazyCapture_cons_ws {c0 : Char} (hc0 : isWs c0 = true)
    (la : List Char → Bool) (X : List Char) (hX : isWs X.headI = false)
    (hXne : X ≠ []) : wsLazyCapture la (c0 :: X) = lazyCapture la X := by
  have hws : wsRunLen (c0 :: X) = 1 := by
    rw [wsRunLen_cons_of_ws _ hc0, wsRunLen_eq_zero hX]
  have hlen : 1 ≤ (c0 :: X).length - 1 := by
    cases X with
    | nil => exact absurd rfl hXne
    | cons a t => simp
  show lazyCapture la ((c0 :: X).drop (min (wsRunLen (c0 :: X)) ((c0 :: X).length - 1))) =
    lazyCapture la X
  rw [hws, Nat.min_eq_left hlen]
  simp

/-- Matching inside a clean value region never produces a boundary label. -/
lemma boundary_in_val_false {labs : List (List Char)}
    (hlabs : ∀ l ∈ labs, ':' ∈ l ∧ '\n' ∉ l ∧ l ≠ [])
    {v : List Char} (hcol : ∀ x ∈ v, lc x ≠ ':') (hlast : isWs v.reverse.headI = false)
    {u : List Char} (hu : u <:+ v) (hune : u ≠ []) (w : List Char) :
    labs.any (fun l => matchCI l (dropWs (u ++ '\n' :: w))) = false := by
  have hnw := sfx_has_nonws hu hune hlast
  obtain ⟨hdw, _⟩ := dropWs_append_of_nonws ('\n' :: w) hnw
  rw [hdw, List.any_eq_false]
  intro l hl
  rcases hlabs l hl with ⟨hcl, hnl, _⟩
  simp only [Bool.not_eq_true]
  exact matchCI_val_nl l (dropWs u) w hcl hnl
    (fun x hx => hcol x (hu.subset (mem_of_mem_dropWs hx)))

lemma laTol_in_val_false {v : List Char} (hcol : ∀ x ∈ v, lc x ≠ ':')
    (hlast : isWs v.reverse.headI = false) {u : List Char} (hu : u <:+ v)
    (hune : u ≠ []) (w : List Char) : laTol (u ++ '\n' :: w) = false := by
  unfold laTol tolBoundary
  rw [boundary_in_val_false allLabels_shape hcol hlast hu hune w]
  simp

lemma laTolContent_in_val_false {v : List Char} (hcol : ∀ x ∈ v, lc x ≠ ':')
    (hlast : isWs v.reverse.headI = false) {u : List Char} (hu : u <:+ v)
    (hune : u ≠ []) (w : List Char) : laTolContent (u ++ '\n' :: w) = false := by
  unfold laTolContent tolContentB
  rw [boundary_in_val_false contentLabels_shape hcol hlast hu hune w]
  simp

/-- The full capture after a label: a single whitespace character, a clean
value whose interior admits no boundary, then the closing newline. -/
lemma wsLazyCapture_clean (la : List Char → Bool) (c0 : Char) (hc0 : isWs c0 = true)
    {v : List Char} (hv : cleanVal v) (rest : List Char)
    (hin : ∀ u, u <:+ v → u ≠ v → u ≠ [] → la (u ++ '\n' :: rest) = false)
    (hnl : la ('\n' :: rest) = true ∨ (rest = [] ∧ la ['\n'] = false ∧ la [] = true)) :
    ∃ cap, wsLazyCapture la (c0 :: (v ++ '\n' :: rest)) = some cap ∧ trimL cap = v := by
  have hne : v ≠ [] := hv.1
  have hhd : isWs v.headI = false := hv.2.2.1
  have hcut : wsLazyCapture la (c0 :: (v ++ '\n' :: rest)) =
      lazyCapture la (v ++ '\n' :: rest) :=
    wsLazyCapture_cons_ws hc0 la _
      (by rw [headI_append_of_ne_nil _ hne]; exact hhd) (by simp)
  rcases hnl with hb | ⟨hrnil, hnlf, hnil⟩
  · refine ⟨v, ?_, trimL_clean hv⟩
    rw [hcut]
    exact lazyCapture_exact la v ('\n' :: rest) hne hb hin
  · subst hrnil
    refine ⟨v ++ ['\n'], ?_, trimL_clean_nl hv⟩
    rw [hcut]
    have hcond : ∀ u, u <:+ v ++ ['\n'] → u ≠ v ++ ['\n'] → u ≠ [] →
        la (u ++ ([] : List Char)) = false := by
      intro u hu hune hunil
      rw [List.append_nil]
      rcases suffix_append_cases hu with h1 | ⟨p, hp, hpne, rfl⟩
      · rcases List.suffix_cons_iff.mp h1 with rfl | h2
        · exact hnlf
        · exact absurd (List.suffix_nil.mp h2) hunil
      · have hpv : p ≠ v := fun h => hune (by rw [h])
        exact hin p hp hpv hpne
    have := lazyCapture_exact la (v ++ ['\n']) [] (by simp) hnil hcond
    rw [List.append_nil] at this
    exact this

/-! ### Extraction at the head block -/

lemma extractField_cons_self {f : FieldName} (hf : f ≠ .content)
    {vals : FieldName → List Char} (hc : ∀ g, cleanVal (vals g))
    (fs : List FieldName) :
    extractField (fname f) (joinBlocks (f :: fs) vals) = vals f := by
  have hinput : joinBlocks (f :: fs) vals =
      labelOf f ++ (' ' :: (vals f ++ '\n' :: joinBlocks fs vals)) := by
    rw [joinBlocks_cons, blockOf_generic _ hf, List.append_assoc]
    simp
  have hnl : laTol ('\n' :: joinBlocks fs vals) = true ∨
      (joinBlocks fs vals = [] ∧ laTol ['\n'] = false ∧ laTol [] = true) := by
    cases fs with
    | nil => exact Or.inr ⟨rfl, laTol_nl_nil, by decide⟩
    | cons g' gs' => exact Or.inl (by simp [laTol, tolBoundary_nl_join g' gs' vals])
  have hin : ∀ u, u <:+ vals f → u ≠ vals f → u ≠ [] →
      laTol (u ++ '\n' :: joinBlocks fs vals) = false :=
    fun u hu _ hunil =>
      laTol_in_val_false (hc f).2.1 (hc f).2.2.2 hu hunil _
  obtain ⟨cap, hcap, htrim⟩ :=
    wsLazyCapture_clean laTol ' ' (by decide) (hc f) (joinBlocks fs vals) hin hnl
  have htry : tryFieldAt (labelOf f) laTol (joinBlocks (f :: fs) vals) = some cap := by
    unfold tryFieldAt
    rw [hinput, stripCI_self_append _ (labelOf_lower f)]
    exact hcap
  have hscan := scan_eq_of_tryAt_some htry
  show (match scan (tryFieldAt (labelOf f) laTol) (joinBlocks (f :: fs) vals) with
        | some cap => trimL cap
        | none => []) = vals f
  rw [hscan]
  exact htrim

lemma contentField_cons_self {vals : FieldName → List Char}
    (hc : ∀ g, cleanVal (vals g)) (fs : List FieldName) (hno : .content ∉ fs) :
    contentField (joinBlocks (.content :: fs) vals) = vals .content := by
  have hinput : joinBlocks (.content :: fs) vals =
      labelOf .content ++
        (' ' :: '|' :: '\n' :: (vals .content ++ '\n' :: joinBlocks fs vals)) := by
    rw [joinBlocks_cons, blockOf_content, List.append_assoc]
    simp
  have hnl : laTolContent ('\n' :: joinBlocks fs vals) = true ∨
      (joinBlocks fs vals = [] ∧ laTolContent ['\n'] = false ∧
        laTolContent [] = true) := by
    cases fs with
    | nil => exact Or.inr ⟨rfl, laTolContent_nl_nil, by decide⟩
    | cons g' gs' =>
      have hg' : g' ≠ .content := fun h => hno (h ▸ List.mem_cons_self g' gs')
      exact Or.inl (by simp [laTolContent, tolContentB_nl_join hg' gs' vals])
  have hin : ∀ u, u <:+ vals .content → u ≠ vals .content → u ≠ [] →
      laTolContent (u ++ '\n' :: joinBlocks fs vals) = false :=
    fun u hu _ hunil =>
      laTolContent_in_val_false (hc .content).2.1 (hc .content).2.2.2 hu hunil _
  obtain ⟨cap, hcap, htrim⟩ :=
    wsLazyCapture_clean laTolContent '\n' (by decide) (hc .content)
      (joinBlocks fs vals) hin hnl
  have htry : tryContentAt (joinBlocks (.content :: fs) vals) = some cap := by
    unfold tryContentAt
    rw [content_label_eq, hinput, stripCI_self_append _ (labelOf_lower .content)]
    show pipeThen laTolContent
      (' ' :: '|' :: '\n' :: (vals .content ++ '\n' :: joinBlocks fs vals)) = some cap
    unfold pipeThen
    rw [dropWs_cons_of_ws _ (by decide), dropWs_cons_of_nonws _ (by decide)]
    exact hcap
  have hscan := scan_eq_of_tryAt_some htry
  show (match scan tryContentAt (joinBlocks (.content :: fs) vals) with
        | some cap => trimL cap
        | none => extractField ("content".toList) (joinBlocks (.content :: fs) vals)) =
      vals .content
  rw [hscan]
  exact htrim

/-! ### Extraction skips foreign blocks -/

lemma extractField_skip {f g : FieldName} (hfg : f ≠ g)
    {vals : FieldName → List Char} (hcg : cleanVal (vals g)) (s : List Char) :
    extractField (fname f) (blockOf g (vals g) ++ s) = extractField (fname f) s := by
  show (match scan (tryFieldAt (labelOf f) laTol) (blockOf g (vals g) ++ s) with
        | some cap => trimL cap
        | none => []) =
      (match scan (tryFieldAt (labelOf f) laTol) s with
        | some cap => trimL cap
        | none => [])
  rw [scan_skip laTol hfg hcg.2.1 s]

lemma contentField_skip {g : FieldName} (hg : g ≠ .content)
    {vals : FieldName → List Char} (hcg : cleanVal (vals g)) (s : List Char) :
    contentField (blockOf g (vals g) ++ s) = contentField s := by
  have hsk := scan_skip_content hg hcg.2.1 s
  have hske : extractField ("content".toList) (blockOf g (vals g) ++ s) =
      extractField ("content".toList) s := by
    have : ("content".toList : List Char) ++ [':'] = labelOf .content := by decide
    show (match scan (tryFieldAt (("content".toList : List Char) ++ [':']) laTol)
            (blockOf g (vals g) ++ s) with
          | some cap => trimL cap
          | none => []) =
        (match scan (tryFieldAt (("content".toList : List Char) ++ [':']) laTol) s with
          | some cap => trimL cap
          | none => [])
    rw [this, scan_skip laTol (fun h => hg h.symm) hcg.2.1 s]
  unfold contentField
  rw [hsk, hske]

/-! ### The main extraction lemma over a list of blocks -/

lemma extract_join {vals : FieldName → List Char} (hc : ∀ g, cleanVal (vals g)) :
    ∀ fs : List FieldName, fs.Nodup →
      (∀ f ∈ fs, f ≠ .content →
        extractField (fname f) (joinBlocks fs vals) = vals f) ∧
      (.content ∈ fs → contentField (joinBlocks fs vals) = vals .content) := by
  intro fs
  induction fs with
  | nil =>
    intro _
    exact ⟨fun f hf => absurd hf (List.not_mem_nil f),
           fun hf => absurd hf (List.not_mem_nil _)⟩
  | cons g gs ih =>
    intro hnd
    have hgno : g ∉ gs := (List.nodup_cons.mp hnd).1
    have hnd' : gs.Nodup := (List.nodup_cons.mp hnd).2
    refine ⟨?_, ?_⟩
    · intro f hf hfc
      rcases List.mem_cons.mp hf with rfl | hf2
      · exact extractField_cons_self hfc hc gs
      · have hfg : f ≠ g := fun h => hgno (h ▸ hf2)
        rw [joinBlocks_cons, extractField_skip hfg (hc g) _]
        exact (ih hnd').1 f hf2 hfc
    · intro hf
      rcases List.mem_cons.mp hf with hg | hf2
      · cases hg
        exact contentField_cons_self hc gs hgno
      · have hgc : g ≠ .content := fun h => hgno (h ▸ hf2)
        rw [joinBlocks_cons, contentField_skip hgc (hc g) _]
        exact (ih hnd').2 hf2

lemma ne_nil_isEmpty_false {l : List Char} (h : l ≠ []) : l.isEmpty = false :=
  List.isEmpty_eq_false.mpr h

lemma orElseL_of_ne_nil {v dflt : List Char} (h : v ≠ []) : orElseL v dflt = v := by
  simp [orElseL, ne_nil_isEmpty_false h]

/-- The record a well-formed input should produce. -/
def fieldsOfVals (vals : FieldName → List Char) : Fields :=
  { slug := vals .slug
    title := vals .title
    category := vals .category
    excerpt := vals .excerpt
    content := vals .content
    image := vals .image }

lemma parseTol_join {vals : FieldName → List Char} (hc : ∀ g, cleanVal (vals g))
    {fs : List FieldName} (hnd : fs.Nodup) (hall : ∀ f : FieldName, f ∈ fs) :
    parseTol (joinBlocks fs vals) = some (fieldsOfVals vals) := by
  have h := extract_join hc fs hnd
  have hslug := h.1 .slug (hall .slug) (by decide)
  have htitle := h.1 .title (hall .title) (by decide)
  have hcategory := h.1 .category (hall .category) (by decide)
  have hexcerpt := h.1 .excerpt (hall .excerpt) (by decide)
  have himage := h.1 .image (hall .image) (by decide)
  have hcontent := h.2 (hall .content)
  have hb1 : ("slug".toList : List Char) = fname .slug := by decide
  have hb2 : ("title".toList : List Char) = fname .title := by decide
  have hb3 : ("category".toList : List Char) = fname .category := by decide
  have hb4 : ("excerpt".toList : List Char) = fname .excerpt := by decide
  have hb5 : ("image".toList : List Char) = fname .image := by decide
  simp only [parseTol, hb1, hb2, hb3, hb4, hb5, hslug, htitle, hcategory,
    hexcerpt, himage, hcontent]
  rw [ne_nil_isEmpty_false (hc .slug).1]
  simp only [Bool.false_and, Bool.false_eq_true, if_false]
  rw [orElseL_of_ne_nil (hc .slug).1, orElseL_of_ne_nil (hc .title).1,
    orElseL_of_ne_nil (hc .category).1, orElseL_of_ne_nil (hc .excerpt).1,
    orElseL_of_ne_nil (hc .content).1, orElseL_of_ne_nil (hc .image).1]
  rfl

/-! ### Characterizations of the parse functions (definitional) -/

lemma parseTol_eq (input : List Char) :
    parseTol input =
      if (extractField ("slug".toList) input).isEmpty &&
          (extractField ("title".toList) input).isEmpty &&
          (contentField input).isEmpty then none
      else some
        { slug := orElseL (extractField ("slug".toList) input) phSlug
          title := orElseL (extractField ("title".toList) input) phTitle
          category := orElseL (extractField ("category".toList) input) phCategory
          excerpt := orElseL (extractField ("excerpt".toList) input) phExcerpt
          content := orElseL (contentField input) phContent
          image := orElseL (extractField ("image".toList) input) phImage } := rfl

lemma parseContentTol_eq (now : Nat) (input : List Char) (st : St) :
    parseContentTol now input st =
      if (trimL input).isEmpty then { parsedData := none, error := [] }
      else
        match parseTol input with
        | none => { parsedData := st.parsedData, error := errInsufficient }
        | some f => { parsedData := some (itemOfFields now f), error := [] } := rfl

lemma parseContentStrict_eq (now : Nat) (input : List Char) (st : St) :
    parseContentStrict now input st =
      if (trimL input).isEmpty then
        { parsedData := st.parsedData, error := errEmptyStrict }
      else
        match parseStrict input with
        | none => { parsedData := st.parsedData, error := errMalformed }
        | some f => { parsedData := some (itemOfFields now f), error := [] } := rfl

lemma orElseL_ne_nil {v dflt : List Char} (hd : dflt ≠ []) : orElseL v dflt ≠ [] := by
  unfold orElseL
  by_cases hv : v.isEmpty = true
  · rw [if_pos hv]; exact hd
  · rw [if_neg hv]
    exact fun h => hv (by rw [h]; rfl)

lemma stripCS_self_append {l : List Char} (t : List Char) :
    stripCS l (l ++ t) = some t := by
  induction l with
  | nil => rfl
  | cons a l ih =>
    simp only [List.cons_append, stripCS]
    rw [if_pos (beq_self_eq_true a)]
    exact ih

lemma matchCI_of_matchCS : ∀ {l s : List Char}, (∀ a ∈ l, lc a = a) →
    matchCS l s = true → matchCI l s = true := by
  intro l
  induction l with
  | nil => intro s _ _; rfl
  | cons a l ih =>
    intro s hl h
    cases s with
    | nil => simp [matchCS] at h
    | cons c r =>
      simp only [matchCS, Bool.and_eq_true] at h
      simp only [matchCI, Bool.and_eq_true]
      refine ⟨?_, ih (fun x hx => hl x (List.mem_cons_of_mem a hx)) h.2⟩
      have : c = a := eq_of_beq h.1
      subst this
      rw [hl c (List.mem_cons_self c l)]
      exact beq_self_eq_true c

/-! ### Concrete data shared by witnesses and counterexamples -/

/-- A concrete record used to exercise the state machines. -/
def r0 : ContentItem :=
  { id := 7
    slug := "s".toList
    title := "t".toList
    category := "c".toList
    excerpt := "e".toList
    content := "k".toList
    image := "i".toList }

/-- The record extracted from `slug: hi` by the tolerant variant. -/
def fX3 : Fields :=
  { slug := "hi".toList
    title := phTitle
    category := phCategory
    excerpt := phExcerpt
    content := phContent
    image := phImage }

/-- Concrete clean values for the permutation witness. -/
def valsW : FieldName → List Char
  | .slug => "my-post".toList
  | .title => "Hello, World".toList
  | .category => "news".toList
  | .excerpt => "A great day".toList
  | .content => "Line one and two".toList
  | .image => "img/y.png".toList

/-! ### Claim C1 -/

/-- Claim C1 is false on the code: with the block marker present, a content
body containing the substring `image:` is truncated right before that
substring, in the tolerant variant (`contentField`) and in the strict variant
(`contentMatchS`) alike, because `image:` is one of the lookahead boundary
labels of both content patterns. -/
theorem claim_C1_cx :
    contentField ("content: |\nHello image: http.e.com/a.png".toList) =
      "Hello".toList ∧
    contentMatchS ("content: |\nHello image: http.e.com/a.png".toList) =
      some ("Hello".toList) ∧
    ("Hello".toList : List Char) ≠ "Hello image: http.e.com/a.png".toList := by
  refine ⟨by decide, by decide, by decide⟩

/-- Claim C1 (amended): with the block marker, the capture extends exactly to
the first position at which a boundary label (`slug:`, `title:`, `category:`,
`excerpt:` or `image:` — `image:` included) follows the whitespace run, or to
the end of input.  A body containing no boundary label is captured in full in
both modes, even when it contains colons; a body containing `image:` is
truncated there (see the counterexample). -/
theorem claim_C1_amended (body : List Char) (hne : body ≠ [])
    (hhd : isWs body.headI = false)
    (hbnd : ∀ u ∈ body.tails, u ≠ body → u ≠ [] → tolContentB u = false) :
    contentField ("content: |\n".toList ++ body) = trimL body ∧
    contentMatchS ("content: |\n".toList ++ body) = some body := by
  have hbnd' : ∀ u, u <:+ body → u ≠ body → u ≠ [] → tolContentB u = false :=
    fun u hu => hbnd u ((List.mem_tails u body).mpr hu)
  have hshape : ("content: |\n".toList : List Char) ++ body =
      labelOf .content ++ (' ' :: '|' :: '\n' :: body) := by
    have h0 : ("content: |\n".toList : List Char) =
        labelOf .content ++ [' ', '|', '\n'] := by decide
    rw [h0, List.append_assoc]
    rfl
  have hlaz : lazyCapture laTolContent body = some body := by
    have hcond : ∀ u, u <:+ body → u ≠ body → u ≠ [] →
        laTolContent (u ++ ([] : List Char)) = false := by
      intro u hu hune hunil
      rw [List.append_nil]
      unfold laTolContent
      rw [hbnd' u hu hune hunil]
      simp [List.isEmpty_eq_false.mpr hunil]
    have := lazyCapture_exact laTolContent body [] hne (by decide) hcond
    rw [List.append_nil] at this
    exact this
  have hlazS : lazyCapture (laNext ("image:".toList)) body = some body := by
    have himg : ("image:".toList : List Char) ∈ contentLabels := by decide
    have hlow : ∀ a ∈ ("image:".toList : List Char), lc a = a := by decide
    have hcond : ∀ u, u <:+ body → u ≠ body → u ≠ [] →
        laNext ("image:".toList) (u ++ ([] : List Char)) = false := by
      intro u hu hune hunil
      rw [List.append_nil]
      unfold laNext
      have hb := hbnd' u hu hune hunil
      unfold tolContentB at hb
      rw [List.any_eq_false] at hb
      have hci : matchCI ("image:".toList) (dropWs u) = false := by
        have := hb _ himg
        simpa using this
      have hcs : matchCS ("image:".toList) (dropWs u) = false := by
        by_contra hx
        rw [Bool.not_eq_false] at hx
        rw [matchCI_of_matchCS hlow hx] at hci
        exact Bool.noConfusion hci
      rw [hcs]
      simp [List.isEmpty_eq_false.mpr hunil]
    have := lazyCapture_exact (laNext ("image:".toList)) body [] hne (by decide) hcond
    rw [List.append_nil] at this
    exact this
  constructor
  · have htry : tryContentAt ("content: |\n".toList ++ body) = some body := by
      unfold tryContentAt
      rw [content_label_eq, hshape, stripCI_self_append _ (labelOf_lower .content)]
      show pipeThen laTolContent (' ' :: '|' :: '\n' :: body) = some body
      unfold pipeThen
      rw [dropWs_cons_of_ws _ (by decide), dropWs_cons_of_nonws _ (by decide)]
      show wsLazyCapture laTolContent ('\n' :: body) = some body
      rw [wsLazyCapture_cons_ws (by decide) _ body hhd hne]
      exact hlaz
    show (match scan tryContentAt ("content: |\n".toList ++ body) with
          | some cap => trimL cap
          | none => extractField ("content".toList) ("content: |\n".toList ++ body)) =
        trimL body
    rw [scan_eq_of_tryAt_some htry]
  · have hstrip : stripCS ("content:".toList) ("content: |\n".toList ++ body) =
        some (' ' :: '|' :: '\n' :: body) := by
      have h0 : ("content: |\n".toList : List Char) ++ body =
          ("content:".toList : List Char) ++ (' ' :: '|' :: '\n' :: body) := by
        rw [hshape, content_label_eq]
      rw [h0]
      exact stripCS_self_append _
    have htry : (match stripCS ("content:".toList) ("content: |\n".toList ++ body) with
        | none => none
        | some rest => pipeThen (laNext ("image:".toList)) rest) = some body := by
      rw [hstrip]
      show pipeThen (laNext ("image:".toList)) (' ' :: '|' :: '\n' :: body) = some body
      unfold pipeThen
      rw [dropWs_cons_of_ws _ (by decide), dropWs_cons_of_nonws _ (by decide)]
      show wsLazyCapture (laNext ("image:".toList)) ('\n' :: body) = some body
      rw [wsLazyCapture_cons_ws (by decide) _ body hhd hne]
      exact hlazS
    exact scan_eq_of_tryAt_some htry

/-- Claim C1 witness: a colon-bearing body free of boundary labels is
captured whole by both content patterns. -/
theorem claim_C1_witness :
    contentField ("content: |\n".toList ++ "A: B\nC-D".toList) =
      trimL ("A: B\nC-D".toList) ∧
    contentMatchS ("content: |\n".toList ++ "A: B\nC-D".toList) =
      some ("A: B\nC-D".toList) :=
  claim_C1_amended ("A: B\nC-D".toList) (by decide) (by decide) (by decide)

/-! ### Claim C2 -/

/-- Claim C2: for every well-formed input — each of the six fields present
exactly once with its label, the content field written with its block marker,
and every value nonempty, colon-free and not starting or ending with
whitespace — tolerant extraction returns the same six values under every
permutation of the field order as under the canonical ordering, namely the
values themselves. -/
theorem claim_C2 (perm : List FieldName) (vals : FieldName → List Char)
    (hperm : perm.Perm canonicalOrder) (hc : ∀ g, cleanVal (vals g)) :
    parseTol (mkInput perm vals) = parseTol (mkInput canonicalOrder vals) ∧
    parseTol (mkInput perm vals) = some (fieldsOfVals vals) := by
  have hnd : perm.Nodup := hperm.nodup_iff.mpr (by decide)
  have hall : ∀ f : FieldName, f ∈ perm :=
    fun f => hperm.mem_iff.mpr (by cases f <;> decide)
  have h1 : parseTol (mkInput perm vals) = some (fieldsOfVals vals) :=
    parseTol_join hc hnd hall
  have h2 : parseTol (mkInput canonicalOrder vals) = some (fieldsOfVals vals) :=
    parseTol_join hc (by decide) (fun f => by cases f <;> decide)
  exact ⟨h1.trans h2.symm, h1⟩

/-- Claim C2 witness: concrete clean values parsed from the fully reversed
field order agree with the canonical order. -/
theorem claim_C2_witness :
    List.Perm [FieldName.image, .content, .excerpt, .category, .title, .slug]
      canonicalOrder ∧
    (∀ g, cleanVal (valsW g)) ∧
    parseTol (mkInput [FieldName.image, .content, .excerpt, .category, .title, .slug]
        valsW) =
      parseTol (mkInput canonicalOrder valsW) :=
  ⟨by decide, by decide,
    (claim_C2 [FieldName.image, .content, .excerpt, .category, .title, .slug]
      valsW (by decide) (by decide)).1⟩

/-! ### Claim C3 -/

/-- Claim C3: tolerant extraction fails (no record, `InsufficientFields`
error) exactly when the extracted slug, title and content are all empty —
a field counts as absent when its label is missing or its captured value
trims to the empty string.  Otherwise a record is produced in which every
absent field carries its field-specific non-empty placeholder. -/
theorem claim_C3 (input : List Char) :
    (parseTol input = none ↔
      extractField ("slug".toList) input = [] ∧
      extractField ("title".toList) input = [] ∧
      contentField input = []) ∧
    (∀ f, parseTol input = some f →
      ((extractField ("slug".toList) input = [] → f.slug = phSlug) ∧
       (extractField ("title".toList) input = [] → f.title = phTitle) ∧
       (extractField ("category".toList) input = [] → f.category = phCategory) ∧
       (extractField ("excerpt".toList) input = [] → f.excerpt = phExcerpt) ∧
       (contentField input = [] → f.content = phContent) ∧
       (extractField ("image".toList) input = [] → f.image = phImage) ∧
       f.slug ≠ [] ∧ f.title ≠ [] ∧ f.category ≠ [] ∧ f.excerpt ≠ [] ∧
       f.content ≠ [] ∧ f.image ≠ [])) ∧
    (∀ now st, parseTol input = none → (trimL input).isEmpty = false →
      parseContentTol now input st =
        { parsedData := st.parsedData, error := errInsufficient }) := by
  have hcd : ((extractField ("slug".toList) input).isEmpty &&
      (extractField ("title".toList) input).isEmpty &&
      (contentField input).isEmpty) = true ↔
      (extractField ("slug".toList) input = [] ∧
       extractField ("title".toList) input = [] ∧ contentField input = []) := by
    simp [List.isEmpty_iff, and_assoc]
  refine ⟨?_, ?_, ?_⟩
  · constructor
    · intro hnone
      by_contra hr
      rw [parseTol_eq] at hnone
      by_cases hcond : ((extractField ("slug".toList) input).isEmpty &&
          (extractField ("title".toList) input).isEmpty &&
          (contentField input).isEmpty) = true
      · exact hr (hcd.mp hcond)
      · rw [if_neg hcond] at hnone
        exact Option.noConfusion hnone
    · intro hr
      rw [parseTol_eq, if_pos (hcd.mpr hr)]
  · intro f hf
    rw [parseTol_eq] at hf
    by_cases hcond : ((extractField ("slug".toList) input).isEmpty &&
        (extractField ("title".toList) input).isEmpty &&
        (contentField input).isEmpty) = true
    · rw [if_pos hcond] at hf
      exact Option.noConfusion hf
    · rw [if_neg hcond] at hf
      injection hf with hf
      subst hf
      refine ⟨?_, ?_, ?_, ?_, ?_, ?_, ?_, ?_, ?_, ?_, ?_, ?_⟩
      · intro h
        show orElseL (extractField ("slug".toList) input) phSlug = phSlug
        rw [h]
        rfl
      · intro h
        show orElseL (extractField ("title".toList) input) phTitle = phTitle
        rw [h]
        rfl
      · intro h
        show orElseL (extractField ("category".toList) input) phCategory = phCategory
        rw [h]
        rfl
      · intro h
        show orElseL (extractField ("excerpt".toList) input) phExcerpt = phExcerpt
        rw [h]
        rfl
      · intro h
        show orElseL (contentField input) phContent = phContent
        rw [h]
        rfl
      · intro h
        show orElseL (extractField ("image".toList) input) phImage = phImage
        rw [h]
        rfl
      · exact orElseL_ne_nil (by decide)
      · exact orElseL_ne_nil (by decide)
      · exact orElseL_ne_nil (by decide)
      · exact orElseL_ne_nil (by decide)
      · exact orElseL_ne_nil (by decide)
      · exact orElseL_ne_nil (by decide)
  · intro now st hnone htrim
    rw [parseContentTol_eq, if_neg (by simp [htrim]), hnone]

/-- Claim C3 witness: `slug: hi` succeeds, fills title with its placeholder,
and an input with only a category fails with the `InsufficientFields`
message, leaving the record untouched. -/
theorem claim_C3_witness :
    fX3.title = phTitle ∧ fX3.slug ≠ [] ∧
    parseContentTol 0 ("category: x".toList) { parsedData := none, error := [] } =
      { parsedData := none, error := errInsufficient } := by
  obtain ⟨_, i2, _, _, _, _, hne1, _⟩ :=
    (claim_C3 ("slug: hi".toList)).2.1 fX3 (by decide)
  exact ⟨i2 (by decide), hne1,
    (claim_C3 ("category: x".toList)).2.2 0 { parsedData := none, error := [] }
      (by decide) (by decide)⟩

/-! ### Claim C4 -/

/-- Claim C4: in strict mode, if any of the six field patterns fails to
match, `parseContent` fails with the `MalformedInput` message and the held
record is not replaced; if all six match, the record of the trimmed captures
is stored. -/
theorem claim_C4 (now : Nat) (input : List Char) (st : St)
    (htrim : (trimL input).isEmpty = false) :
    ((slugMatch input = none ∨ titleMatch input = none ∨
      categoryMatch input = none ∨ excerptMatch input = none ∨
      contentMatchS input = none ∨ imageMatch input = none) →
      parseContentStrict now input st =
        { parsedData := st.parsedData, error := errMalformed }) ∧
    (∀ s t c e co i, slugMatch input = some s → titleMatch input = some t →
      categoryMatch input = some c → excerptMatch input = some e →
      contentMatchS input = some co → imageMatch input = some i →
      parseContentStrict now input st =
        { parsedData := some
            { id := now, slug := trimL s, title := trimL t, category := trimL c,
              excerpt := trimL e, content := trimL co, image := trimL i }
          error := [] }) := by
  constructor
  · intro hor
    have hnone : parseStrict input = none := by
      unfold parseStrict
      cases hs : slugMatch input <;> cases ht : titleMatch input <;>
        cases hc2 : categoryMatch input <;> cases he : excerptMatch input <;>
          cases hco : contentMatchS input <;> cases hi : imageMatch input <;>
            simp_all
    rw [parseContentStrict_eq, if_neg (by simp [htrim]), hnone]
  · intro s t c e co i hs ht hc2 he hco hi
    have hsome : parseStrict input = some
        { slug := trimL s, title := trimL t, category := trimL c,
          excerpt := trimL e, content := trimL co, image := trimL i } := by
      unfold parseStrict
      rw [hs, ht, hc2, he, hco, hi]
    rw [parseContentStrict_eq, if_neg (by simp [htrim]), hsome]
    rfl

/-- Claim C4 witness: a one-field input fails with `MalformedInput` and the
record survives; the canonical six-field input is parsed into the trimmed
captures. -/
theorem claim_C4_witness :
    parseContentStrict 3 ("title: b".toList) { parsedData := some r0, error := [] } =
      { parsedData := some r0, error := errMalformed } ∧
    parseContentStrict 3
        ("slug: a\ntitle: b\ncategory: c\nexcerpt: d\ncontent: |\ne\nimage: f".toList)
        { parsedData := some r0, error := [] } =
      { parsedData := some
          { id := 3, slug := trimL ("a".toList), title := trimL ("b".toList),
            category := trimL ("c".toList), excerpt := trimL ("d".toList),
            content := trimL ("e".toList), image := trimL ("f".toList) }
        error := [] } := by
  refine ⟨(claim_C4 3 ("title: b".toList) _ (by decide)).1 (Or.inl (by decide)), ?_⟩
  exact (claim_C4 3
      ("slug: a\ntitle: b\ncategory: c\nexcerpt: d\ncontent: |\ne\nimage: f".toList)
      { parsedData := some r0, error := [] } (by decide)).2
    ("a".toList) ("b".toList) ("c".toList) ("d".toList) ("e".toList) ("f".toList)
    (by decide) (by decide) (by decide) (by decide) (by decide) (by decide)

/-! ### Claim C5 -/

lemma dubQ_len (v : List Char) : v.length ≤ (dubQ v).length := by
  induction v with
  | nil => simp [dubQ]
  | cons c cs ih =>
    unfold dubQ at ih ⊢
    rw [List.flatMap_cons]
    by_cases hc : (c == '"') = true
    · rw [if_pos hc]
      simp only [List.length_append, List.length_cons, List.length_nil]
      omega
    · rw [if_neg hc]
      simp only [List.length_append, List.length_cons, List.length_nil]
      omega

/-- Claim C5: the per-value CSV escaping shared by both variants wraps a
value in double quotes with internal quotes doubled exactly when the value
contains a comma, a double quote or a newline (and then the output really
differs from the input); any other value is emitted unchanged. -/
theorem claim_C5 (v : List Char) :
    ((v.contains ',' || v.contains '"' || v.contains '\n') = true →
      escCSV v = '"' :: (dubQ v ++ ['"']) ∧ escCSV v ≠ v) ∧
    ((v.contains ',' || v.contains '"' || v.contains '\n') = false →
      escCSV v = v) := by
  constructor
  · intro h
    have he : escCSV v = '"' :: (dubQ v ++ ['"']) := by
      unfold escCSV needsQuote
      rw [if_pos h]
    refine ⟨he, ?_⟩
    intro hv
    rw [he] at hv
    have hlen := congrArg List.length hv
    simp only [List.length_cons, List.length_append, List.length_nil] at hlen
    have := dubQ_len v
    omega
  · intro h
    unfold escCSV needsQuote
    rw [if_neg (fun hx => by rw [h] at hx; exact Bool.noConfusion hx)]

/-- Claim C5 witness: a comma-bearing value is quoted, a plain value is kept
verbatim. -/
theorem claim_C5_witness :
    escCSV ("a,b".toList) = '"' :: (dubQ ("a,b".toList) ++ ['"']) ∧
    escCSV ("ab".toList) = "ab".toList :=
  ⟨((claim_C5 ("a,b".toList)).1 (by decide)).1, (claim_C5 ("ab".toList)).2 (by decide)⟩

/-! ### Claim C6 -/

/-- Claim C6 is false on the code: in the strict/on-demand variant an empty
or whitespace-only input *does* set an error message (`Please enter content
to parse`) and does *not* clear the held record. -/
theorem claim_C6_cx :
    (parseContentStrict 0 ("   ".toList)
        { parsedData := some r0, error := [] }).error = errEmptyStrict ∧
    errEmptyStrict ≠ [] ∧
    (parseContentStrict 0 ("   ".toList)
        { parsedData := some r0, error := [] }).parsedData = some r0 := by
  refine ⟨by decide, by decide, by decide⟩

/-- Claim C6 (amended): on empty or whitespace-only input the reactive
variant clears the record and sets no error (the previous error text is left
as it was), while the strict variant keeps the record and sets the
`Please enter content to parse` error. -/
theorem claim_C6_amended (now : Nat) (input : List Char) (st : St)
    (h : (trimL input).isEmpty = true) :
    reactiveStep now input st = { parsedData := none, error := st.error } ∧
    parseContentStrict now input st =
      { parsedData := st.parsedData, error := errEmptyStrict } := by
  constructor
  · unfold reactiveStep
    rw [if_pos h]
  · rw [parseContentStrict_eq, if_pos h]

/-- Claim C6 witness: the amended behavior at a concrete whitespace input
and a concrete held state. -/
theorem claim_C6_witness :
    reactiveStep 0 (" \n".toList) { parsedData := some r0, error := "x".toList } =
      { parsedData := none, error := "x".toList } ∧
    parseContentStrict 0 (" \n".toList)
        { parsedData := some r0, error := "x".toList } =
      { parsedData := some r0, error := errEmptyStrict } :=
  claim_C6_amended 0 (" \n".toList)
    { parsedData := some r0, error := "x".toList } (by decide)

/-! ### Claim C7 -/

/-- Claim C7 is false on the code: the strict variant's clipboard payload is
not the bare tab-joined seven values — it prepends a tab-joined header row
and joins the two rows with a newline. -/
theorem claim_C7_cx :
    clipboardStrict r0 ≠ List.intercalate ['\t'] (sevenValues r0) ∧
    clipboardTol r0 = List.intercalate ['\t'] (sevenValues r0) := by
  refine ⟨by decide, by decide⟩

/-- Claim C7 (amended): the tolerant variant's clipboard payload is exactly
the seven values (stringified id first) joined by single tabs, with no
header and no trailing newline; the strict variant's payload is the
tab-joined header row, a newline, then the tab-joined seven values. -/
theorem claim_C7_amended (r : ContentItem) :
    clipboardTol r = List.intercalate ['\t'] (sevenValues r) ∧
    clipboardStrict r =
      List.intercalate ['\t'] headerNames ++
        '\n' :: List.intercalate ['\t'] (sevenValues r) := by
  constructor
  · rfl
  · unfold clipboardStrict
    simp [List.intercalate]

/-! ### Claim C8 -/

/-- Claim C8 is false on the code: the strict variant's patterns carry only
the `s` flag, so its label matching is case-sensitive — upper-casing a label
turns a successful strict parse into a failure. -/
theorem claim_C8_cx :
    parseStrict
        ("slug: a\ntitle: b\ncategory: c\nexcerpt: d\ncontent: |\ne\nimage: f".toList)
      ≠ none ∧
    parseStrict
        ("SLUG: a\ntitle: b\ncategory: c\nexcerpt: d\ncontent: |\ne\nimage: f".toList)
      = none := by
  refine ⟨by decide, by decide⟩

/-- Claim C8 (amended): label matching is case-insensitive in the tolerant
variant only (`is` flags): upper-casing `slug:` leaves the tolerant result
unchanged, while the same change makes the strict variant (`s` flag only)
fail. -/
theorem claim_C8_amended :
    parseTol
        ("SLUG: a\ntitle: b\ncategory: c\nexcerpt: d\ncontent: |\ne\nimage: f".toList)
      = parseTol
        ("slug: a\ntitle: b\ncategory: c\nexcerpt: d\ncontent: |\ne\nimage: f".toList) ∧
    parseStrict
        ("slug: a\ntitle: b\ncategory: c\nexcerpt: d\ncontent: |\ne\nimage: f".toList)
      = some
        { slug := "a".toList, title := "b".toList, category := "c".toList,
          excerpt := "d".toList, content := "e".toList, image := "f".toList } ∧
    parseStrict
        ("SLUG: a\ntitle: b\ncategory: c\nexcerpt: d\ncontent: |\ne\nimage: f".toList)
      = none := by
  refine ⟨by decide, by decide, by decide⟩

/-! ### Claim C9 -/

/-- Claim C9 is false on the code: in the reactive variant, a failed parse of
non-empty input does *not* clear the previously held record — the failure
branch only sets the error message. -/
theorem claim_C9_cx :
    parseTol ("category: x".toList) = none ∧
    (reactiveStep 5 ("category: x".toList)
        { parsedData := some r0, error := [] }).parsedData = some r0 := by
  refine ⟨by decide, by decide⟩

/-- Claim C9 (amended): in *both* variants a failed parse of non-empty input
leaves the previously held record untouched; the reactive variant clears the
record only when the raw input becomes empty or whitespace-only. -/
theorem claim_C9_amended (now : Nat) (input : List Char) (st : St)
    (htrim : (trimL input).isEmpty = false) :
    (parseTol input = none →
      (reactiveStep now input st).parsedData = st.parsedData) ∧
    (parseStrict input = none →
      (parseContentStrict now input st).parsedData = st.parsedData) := by
  constructor
  · intro h
    unfold reactiveStep
    rw [if_neg (by simp [htrim]), parseContentTol_eq, if_neg (by simp [htrim]), h]
  · intro h
    rw [parseContentStrict_eq, if_neg (by simp [htrim]), h]

/-- Claim C9 witness: a concrete failing non-empty input keeps the held
record in both variants. -/
theorem claim_C9_witness :
    (reactiveStep 5 ("category: y".toList)
        { parsedData := some r0, error := [] }).parsedData = some r0 ∧
    (parseContentStrict 5 ("category: y".toList)
        { parsedData := some r0, error := [] }).parsedData = some r0 := by
  have h := claim_C9_amended 5 ("category: y".toList)
    { parsedData := some r0, error := [] } (by decide)
  exact ⟨h.1 (by decide), h.2 (by decide)⟩

/-! ### Claim C10 -/

/-- Claim C10: every record produced by tolerant extraction has all six
string fields non-empty — an absent or blank field is replaced by its
non-empty placeholder before the record is built. -/
theorem claim_C10 (input : List Char) (f : Fields) (h : parseTol input = some f) :
    f.slug ≠ [] ∧ f.title ≠ [] ∧ f.category ≠ [] ∧ f.excerpt ≠ [] ∧
    f.content ≠ [] ∧ f.image ≠ [] := by
  rw [parseTol_eq] at h
  by_cases hcond : ((extractField ("slug".toList) input).isEmpty &&
      (extractField ("title".toList) input).isEmpty &&
      (contentField input).isEmpty) = true
  · rw [if_pos hcond] at h
    exact Option.noConfusion h
  · rw [if_neg hcond] at h
    injection h with h
    subst h
    exact ⟨orElseL_ne_nil (by decide), orElseL_ne_nil (by decide),
      orElseL_ne_nil (by decide), orElseL_ne_nil (by decide),
      orElseL_ne_nil (by decide), orElseL_ne_nil (by decide)⟩

/-- Claim C10 witness: the record parsed from `slug: hi` (placeholders for
the five absent fields) has no empty field. -/
theorem claim_C10_witness :
    parseTol ("slug: hi".toList) = some fX3 ∧ fX3.slug ≠ [] ∧ fX3.content ≠ [] := by
  refine ⟨by decide, ?_, ?_⟩
  · exact (claim_C10 ("slug: hi".toList) fX3 (by decide)).1
  · exact (claim_C10 ("slug: hi".toList) fX3 (by decide)).2.2.2.2.1
